import Mathlib

/-!
Verification of the content-analysis core of the Smart Web Assistant
browser extension (file `src/content.js`).

The JavaScript strings are embedded as `List Char`; JavaScript numbers
produced by the sentence scorer are embedded as rationals (`ℚ`), with the
arithmetic written exactly as in the source.  Each definition below is a
direct translation of the correspondingly named function of
`src/content.js`; DOM fragments touched by the highlighter are embedded as
a small tree type (`DomNode`).
-/

/-- The sentence-terminal punctuation class of the split pattern
used by `findImportantSentences` (the characters matched by the
regular expression class containing the period, the exclamation mark
and the question mark). -/
def isPunct (c : Char) : Bool := c = '.' || c = '!' || c = '?'

/-- Whitespace as tested by the JavaScript escapes used in `content.js`
(space, tab, newline, carriage return, vertical tab, form feed). -/
def isWs (c : Char) : Bool :=
  c = ' ' || c = '\t' || c = '\n' || c = '\r' || c = '\x0b' || c = '\x0c'

/-- Helper for `splitPunct`: accumulates the current fragment (reversed)
while scanning the input; the flag records whether the scanner stands
inside a separator run, so that a run of punctuation characters acts as a
single separator, matching the one-or-more quantifier of the source's
split pattern. -/
def splitPunctAux : List Char → List Char → Bool → List (List Char)
  | [], acc, _ => [acc.reverse]
  | c :: rest, acc, inSep =>
    if isPunct c then
      if inSep then splitPunctAux rest [] true
      else acc.reverse :: splitPunctAux rest [] true
    else splitPunctAux rest (c :: acc) false

/-- Embedding of `text.split(pattern)` where the pattern is one-or-more sentence-terminal
punctuation characters, as in `findImportantSentences`. -/
def splitPunct (l : List Char) : List (List Char) := splitPunctAux l [] false

/-- JavaScript `String.prototype.trim`: strip leading and trailing
whitespace. -/
def jsTrim (l : List Char) : List Char :=
  ((l.dropWhile isWs).reverse.dropWhile isWs).reverse

/-- JavaScript `String.prototype.toLowerCase`, restricted to the
characters this program feeds it (ASCII letters and Korean syllables,
on which the simple character-wise lowering agrees with it). -/
def jsToLower (l : List Char) : List Char := l.map Char.toLower

/-- Does the string begin with the given pattern?  (Both arguments are
plain character lists; the pattern comes first.) -/
def beginsWith : List Char → List Char → Bool
  | [], _ => true
  | _ :: _, [] => false
  | a :: as, b :: bs => a == b && beginsWith as bs

/-- JavaScript `String.prototype.indexOf`: the least index at which the
pattern `t` occurs in `s`, or `none` when it does not occur (the source's
`-1`). -/
def subIndex (t : List Char) : List Char → Option Nat
  | [] => if beginsWith t [] then some 0 else none
  | c :: rest =>
    if beginsWith t (c :: rest) then some 0
    else (subIndex t rest).map (fun i => i + 1)

/-- JavaScript `String.prototype.includes`: substring containment. -/
def containsSub (s t : List Char) : Bool := (subIndex t s).isSome

/-- The fixed bilingual keyword list of `scoreSentence`. -/
def keywords : List (List Char) :=
  [String.toList "중요", String.toList "핵심", String.toList "주요",
   String.toList "결론", String.toList "요약",
   String.toList "key", String.toList "important",
   String.toList "main", String.toList "summary"]

/-- Embedding of `scoreSentence` of `src/content.js`: starts from 0, adds the length
factor `min(length/100, 2)`, adds 1 for each keyword contained
case-insensitively in the sentence, and finally adds the position factor
`max(0, 1 - length/1000)`. -/
def scoreSentence (s : List Char) : ℚ :=
  let score0 : ℚ := 0
  let score1 : ℚ := score0 + min ((s.length : ℚ) / 100) 2
  let score2 : ℚ := keywords.foldl
    (fun sc kw => if containsSub (jsToLower s) (jsToLower kw) then sc + 1 else sc)
    score1
  score2 + max 0 (1 - (s.length : ℚ) / 1000)

/-- An element of the intermediate `scoredSentences` array of
`findImportantSentences`: the trimmed sentence text paired with the score
of the untrimmed sentence. -/
structure Scored where
  text : List Char
  score : ℚ

/-- The ordering tested by the sort comparator
`(a, b) => b.score - a.score`: `a` may come before `b` exactly when
`b.score ≤ a.score` (descending by score). -/
def scoreGe (a b : Scored) : Prop := b.score ≤ a.score

instance : DecidableRel scoreGe :=
  fun a b => inferInstanceAs (Decidable (b.score ≤ a.score))

instance : IsTotal Scored scoreGe :=
  ⟨fun a b => le_total b.score a.score⟩

instance : IsTrans Scored scoreGe :=
  ⟨fun _ _ _ h1 h2 => le_trans h2 h1⟩

/-- The stable descending-by-score sort performed by
`scoredSentences.sort((a, b) => b.score - a.score)` (JavaScript array sort
is stable, so it is embedded as a stable insertion sort for `scoreGe`). -/
def sortScored (l : List Scored) : List Scored := l.insertionSort scoreGe

/-- The candidate sentences of `findImportantSentences`: the split
fragments whose trimmed length is strictly greater than 20. -/
def sentenceCandidates (text : List Char) : List (List Char) :=
  (splitPunct text).filter (fun s => 20 < (jsTrim s).length)

/-- The `scoredSentences` array: trimmed text, score of the untrimmed
fragment. -/
def scoredSentences (text : List Char) : List Scored :=
  (sentenceCandidates text).map (fun s => Scored.mk (jsTrim s) (scoreSentence s))

/-- Embedding of `findImportantSentences` of `src/content.js`: split, filter, score,
sort descending, take the first 5, return the texts. -/
def findImportantSentences (text : List Char) : List (List Char) :=
  (((sortScored (scoredSentences text)).take 5).map Scored.text)

/-- The substitution of every whitespace run by one space performed by the
first `replace` of `extractTextContent` (global pattern: one-or-more
whitespace characters, replacement a single space). -/
def collapseWsAux : List Char → Bool → List Char
  | [], _ => []
  | c :: rest, inRun =>
    if isWs c then
      if inRun then collapseWsAux rest true
      else ' ' :: collapseWsAux rest true
    else c :: collapseWsAux rest false

/-- The whitespace-run substitution of `extractTextContent` (see
`collapseWsAux`; the flag starts outside a run). -/
def collapseWs (l : List Char) : List Char := collapseWsAux l false

/-- Position of the last newline of a list, if any (used to embed the
greedy match of the blank-line pattern). -/
def lastNL : List Char → Option Nat
  | [] => none
  | c :: rest =>
    match lastNL rest with
    | some i => some (i + 1)
    | none => if c = '\n' then some 0 else none

/-- The second `replace` of `extractTextContent`, whose global pattern is
a newline, then any run of whitespace, then a newline, replaced by one
newline.  At a match position the greedy run ends at the last newline of
the leading whitespace run; scanning resumes after the replaced text. -/
def collapseBlank (l : List Char) : List Char :=
  match l with
  | [] => []
  | c :: rest =>
    if c = '\n' then
      match lastNL (rest.takeWhile isWs) with
      | some i => '\n' :: collapseBlank (rest.drop (i + 1))
      | none => c :: collapseBlank rest
    else c :: collapseBlank rest
termination_by l.length
decreasing_by
  · simp only [List.length_cons]
    exact Nat.lt_succ_of_le ((List.drop_sublist _ _).length_le)
  · simp
  · simp

/-- The normalization pipeline of `extractTextContent`, applied to the raw
text read from the document: collapse whitespace runs, collapse blank
lines, trim. -/
def normalizedText (raw : List Char) : List Char :=
  jsTrim (collapseBlank (collapseWs raw))

/-- Embedding of `extractTextContent` of `src/content.js`, as a function of the raw
text read from the main-content element (the DOM reading itself is outside
this embedding): normalize, then keep at most the first 15000 characters
(`substring(0, 15000)`), appending nothing. -/
def extractTextContent (raw : List Char) : List Char :=
  (normalizedText raw).take 15000

/-- A DOM fragment as the highlighter sees it: text nodes and highlight
marker elements (`span.smart-assistant-highlight`).  A marker's children
are the nodes it wraps; no other element kinds appear in the affected
region of the embedding. -/
inductive DomNode where
  | text (s : List Char)
  | mark (children : List DomNode)

/-- The `textContent` of a fragment: concatenation of all text, in document
order. -/
def docText : List DomNode → List Char
  | [] => []
  | .text s :: ns => s ++ docText ns
  | .mark cs :: ns => docText cs ++ docText ns

/-- Does the fragment contain a highlight marker element at top level?
(Markers can only nest inside markers, so an empty answer here means no
marker at any depth.) -/
def anyMark : List DomNode → Bool
  | [] => false
  | .text _ :: ns => anyMark ns
  | .mark _ :: _ => true

/-- No marker element contains another marker element. -/
def nestedFree : List DomNode → Bool
  | [] => true
  | .text _ :: ns => nestedFree ns
  | .mark cs :: ns => !anyMark cs && nestedFree ns

/-- Embedding of `highlightTextInNode` of `src/content.js` on a single text node with
content `s` and target `t`: locate `t` by `indexOf`, split into before /
matched / after, wrap the match in a marker element, and omit empty
before/after text nodes.  When `t` does not occur the node is left
unchanged. -/
def highlightTextInNode (s t : List Char) : List DomNode :=
  match subIndex t s with
  | none => [.text s]
  | some i =>
    (if s.take i = [] then [] else [.text (s.take i)])
      ++ [.mark [.text ((s.drop i).take t.length)]]
      ++ (if s.drop (i + t.length) = [] then [] else [.text (s.drop (i + t.length))])

/-- Embedding of `highlightSentences` of `src/content.js` on a region fragment: visit
every text node (also inside marker elements, as the tree walker does),
skip nodes with blank content, and on the first sentence contained in the
node's text apply `highlightTextInNode`. -/
def applyList (sentences : List (List Char)) : List DomNode → List DomNode
  | [] => []
  | .text s :: ns =>
    (if jsTrim s = [] then [.text s]
     else
       match sentences.find? (fun t => containsSub s t) with
       | some t => highlightTextInNode s t
       | none => [.text s]) ++ applyList sentences ns
  | .mark cs :: ns => .mark (applyList sentences cs) :: applyList sentences ns

/-- The operation `applyHighlights`: the document mutation performed by
`highlightSentences` on the affected region. -/
def applyHighlights (sentences : List (List Char)) (doc : List DomNode) : List DomNode :=
  applyList sentences doc

/-- The replacement loop of `removeHighlights`: every marker element is
replaced by a plain text node holding its text content. -/
def removeMarksList : List DomNode → List DomNode
  | [] => []
  | .text s :: ns => .text s :: removeMarksList ns
  | .mark cs :: ns => .text (docText cs) :: removeMarksList ns

/-- Embedding of `Node.normalize()` on the region: drop empty text nodes and merge
adjacent text nodes (marker elements are left in place). -/
def normalizeNodes : List DomNode → List DomNode
  | [] => []
  | .mark cs :: ns => .mark cs :: normalizeNodes ns
  | .text s :: ns =>
    if s = [] then normalizeNodes ns
    else
      match normalizeNodes ns with
      | .text t :: rest => .text (s ++ t) :: rest
      | r => .text s :: r

/-- Embedding of `removeHighlights` of `src/content.js` on the region: when marker
elements are present, each is replaced by a text node with its text
content and the parent is normalized; when none are present the query
returns nothing and the document is untouched. -/
def removeHighlights (doc : List DomNode) : List DomNode :=
  if anyMark doc then normalizeNodes (removeMarksList doc) else doc

/-- Embedding of `highlightImportantContent` of `src/content.js` on the region: remove
any previous highlights first, then extract the page text, rank it, and
apply highlights for the ranked sentences. -/
def highlightImportantContent (doc : List DomNode) : List DomNode :=
  applyHighlights
    (findImportantSentences (extractTextContent (docText (removeHighlights doc))))
    (removeHighlights doc)

/-- The document states reachable from a marker-free page by the two
message-driven highlight operations. -/
inductive Reachable : List DomNode → Prop
  | init (doc : List DomNode) : anyMark doc = false → Reachable doc
  | highlight (doc : List DomNode) :
      Reachable doc → Reachable (highlightImportantContent doc)
  | remove (doc : List DomNode) :
      Reachable doc → Reachable (removeHighlights doc)

/-- One search hit of `searchInPage`. -/
structure SearchHit where
  kind : String
  content : List Char
  relevance : Nat
deriving DecidableEq, Repr

/-- Embedding of `searchInPage` of `src/content.js`: a page-text hit (relevance 1) when
the lowercased extracted text contains the lowercased query (its content
models the fixed found-message), then one heading hit (relevance 2) per
heading whose lowercased text contains the lowercased query. -/
def searchInPage (pageText : List Char) (headings : List (List Char))
    (query : List Char) : List SearchHit :=
  (if containsSub (jsToLower pageText) (jsToLower query)
   then [SearchHit.mk "text" query 1] else [])
    ++ (headings.filter (fun h => containsSub (jsToLower h) (jsToLower query))).map
        (fun h => SearchHit.mk "heading" h 2)

/-- The response values produced by the message listener of
`setupMessageListener`. -/
inductive HandlerResponse where
  | statusAlive
  | pageContent (text : List Char)
  | success
  | searchResults (hits : List SearchHit)
  | failure (error : String)
deriving DecidableEq, Repr

/-- Is the response the structured failure payload
`{ success: false, error }`? -/
def HandlerResponse.isFailure : HandlerResponse → Bool
  | .failure _ => true
  | _ => false

/-- The action names recognized by the listener's switch. -/
def recognizedActions : List String :=
  ["ping", "getPageContent", "highlightImportantContent",
   "removeHighlights", "searchInPage"]

/-- The switch of `setupMessageListener`, as a function of the page's raw
text and heading texts (the payload-relevant state) and of the request's
action name and query: each recognized action answers with its payload,
every other action name answers with the structured failure
`{ success: false, error: 'Unknown action' }`. -/
def handleMessage (pageText : List Char) (headings : List (List Char))
    (action : String) (query : List Char) : HandlerResponse :=
  if action = "ping" then .statusAlive
  else if action = "getPageContent" then .pageContent (extractTextContent pageText)
  else if action = "highlightImportantContent" then .success
  else if action = "removeHighlights" then .success
  else if action = "searchInPage" then
    .searchResults (searchInPage (extractTextContent pageText) headings query)
  else .failure "Unknown action"

/-- Folding the keyword loop of `scoreSentence` adds one per keyword
satisfying the containment test. -/
theorem foldl_keyword_count (p : List Char → Bool) (l : List (List Char)) :
    ∀ init : ℚ,
      l.foldl (fun sc kw => if p kw then sc + 1 else sc) init
        = init + ((l.filter p).length : ℚ) := by
  induction l with
  | nil => intro init; simp
  | cons kw kws ih =>
    intro init
    by_cases h : p kw = true
    · simp only [List.foldl_cons, List.filter_cons, h, if_true, ih,
        List.length_cons]
      push_cast
      ring
    · simp only [Bool.not_eq_true] at h
      simp only [List.foldl_cons, List.filter_cons, h, if_false, ih,
        Bool.false_eq_true]

/-- C1: the score of every sentence is the sum of exactly three terms: the
length term `min(length/100, 2)`, one point per distinct keyword of the
fixed bilingual list occurring case-insensitively as a substring (at most
one hit per keyword), and the term `max(0, 1 - length/1000)`. -/
theorem scoreSentence_is_three_terms (s : List Char) :
    scoreSentence s =
      min ((s.length : ℚ) / 100) 2
        + ((keywords.filter
            (fun kw => containsSub (jsToLower s) (jsToLower kw))).length : ℚ)
        + max 0 (1 - (s.length : ℚ) / 1000) := by
  simp only [scoreSentence, foldl_keyword_count]
  ring

/-- C2 counterexample: a document that is exactly one 20-character
fragment with trimmed length exactly 20 produces no candidate at all,
whereas the claim demands that such a fragment be kept. -/
theorem sentenceCandidates_drops_twenty :
    splitPunct (List.replicate 20 'a') = [List.replicate 20 'a']
      ∧ (jsTrim (List.replicate 20 'a')).length = 20
      ∧ sentenceCandidates (List.replicate 20 'a') = [] := by
  refine ⟨by decide, by decide, by decide⟩

/-- C2 (amended): the candidate set consists of the fragments obtained by
splitting on runs of sentence-terminal punctuation whose trimmed length is
strictly greater than 20 characters (so a fragment of trimmed length
exactly 20 is discarded), in original order. -/
theorem sentenceCandidates_characterization (text : List Char) :
    (∀ s, s ∈ sentenceCandidates text ↔
        (s ∈ splitPunct text ∧ 20 < (jsTrim s).length))
      ∧ List.Sublist (sentenceCandidates text) (splitPunct text) := by
  constructor
  · intro s
    simp [sentenceCandidates, List.mem_filter]
  · exact List.filter_sublist _

/-- C7: the ranker is deterministic — identical input text yields an
identical ordered output sequence. -/
theorem findImportantSentences_deterministic (t₁ t₂ : List Char)
    (h : t₁ = t₂) :
    findImportantSentences t₁ = findImportantSentences t₂ := by
  rw [h]

/-- Witness for C7 at a concrete input. -/
theorem findImportantSentences_deterministic_witness :
    findImportantSentences (String.toList "same input text")
      = findImportantSentences (String.toList "same input text") :=
  findImportantSentences_deterministic _ _ rfl

/-- Inserting an element into the stable sort keeps the relative order of
equal-score elements: on any score level, the insertion either prepends
the new element (its own level) or leaves the level untouched. -/
theorem filter_score_orderedInsert (q : ℚ) (x : Scored) (l : List Scored) :
    (l.orderedInsert scoreGe x).filter (fun a => decide (a.score = q))
      = if x.score = q then
          x :: l.filter (fun a => decide (a.score = q))
        else l.filter (fun a => decide (a.score = q)) := by
  induction l with
  | nil =>
    by_cases hx : x.score = q <;> simp [List.orderedInsert, hx]
  | cons b bs ih =>
    rw [List.orderedInsert]
    by_cases hxb : scoreGe x b
    · rw [if_pos hxb]
      by_cases hx : x.score = q <;>
        by_cases hb : b.score = q <;>
          simp [List.filter_cons, hx, hb]
    · rw [if_neg hxb]
      have hlt : x.score < b.score := lt_of_not_le hxb
      by_cases hx : x.score = q
      · have hb : ¬ b.score = q := by
          intro hb
          exact absurd (hb ▸ hx ▸ hlt) (lt_irrefl _)
        simp [List.filter_cons, hb, ih, hx]
      · by_cases hb : b.score = q <;>
          simp [List.filter_cons, hb, ih, hx]

/-- The stable sort of `findImportantSentences` keeps the relative order
of equal-score elements. -/
theorem filter_score_sortScored (q : ℚ) (l : List Scored) :
    (sortScored l).filter (fun a => decide (a.score = q))
      = l.filter (fun a => decide (a.score = q)) := by
  induction l with
  | nil => rfl
  | cons b bs ih =>
    show ((List.insertionSort scoreGe bs).orderedInsert scoreGe b).filter _ = _
    rw [filter_score_orderedInsert]
    by_cases hb : b.score = q <;>
      simp only [hb, if_true, if_false, List.filter_cons, decide_eq_true_eq,
        ite_true, ite_false] <;>
      simp [sortScored] at ih <;> simp [ih, hb]

/-- C3: the ranker's output is the trimmed texts of the first five
elements of the score-descending stable sort of the qualifying sentences:
the sorted list is descending by score, is a permutation of the scored
list, preserves the original relative order on every score level, and the
output length is the minimum of 5 and the number of qualifying sentences
(so all of them are returned when fewer than 5 qualify, and the empty
sequence when none qualify). -/
theorem findImportantSentences_top_five (text : List Char) :
    findImportantSentences text
        = ((sortScored (scoredSentences text)).take 5).map Scored.text
      ∧ List.Sorted scoreGe (sortScored (scoredSentences text))
      ∧ List.Perm (sortScored (scoredSentences text)) (scoredSentences text)
      ∧ (∀ q : ℚ,
          (sortScored (scoredSentences text)).filter (fun a => decide (a.score = q))
            = (scoredSentences text).filter (fun a => decide (a.score = q)))
      ∧ (findImportantSentences text).length = min 5 (scoredSentences text).length := by
  refine ⟨rfl, List.sorted_insertionSort scoreGe _,
    List.perm_insertionSort scoreGe _,
    fun q => filter_score_sortScored q _, ?_⟩
  simp [findImportantSentences, sortScored, List.length_take,
    List.length_insertionSort]

/-- C6: the extracted text is exactly the normalized raw text (whitespace
runs collapsed to single spaces, blank lines collapsed, trimmed) cut to
its first 15000 characters with nothing appended, so its length is the
minimum of 15000 and the normalized length — in particular exactly 15000
whenever the normalized text is longer. -/
theorem extractTextContent_normalize_truncate (raw : List Char) :
    extractTextContent raw = (jsTrim (collapseBlank (collapseWs raw))).take 15000
      ∧ (extractTextContent raw).length
          = min 15000 (jsTrim (collapseBlank (collapseWs raw))).length := by
  exact ⟨rfl, List.length_take _ _⟩

/-- Text content distributes over fragment concatenation. -/
theorem docText_append (a b : List DomNode) :
    docText (a ++ b) = docText a ++ docText b := by
  induction a with
  | nil => simp [docText]
  | cons n ns ih => cases n <;> simp [docText, ih]

/-- Text content of an optionally omitted text node. -/
theorem docText_optText (x : List Char) :
    docText (if x = [] then [] else [DomNode.text x]) = x := by
  by_cases hx : x = [] <;> simp [hx, docText]

/-- The single-node replacement of `highlightTextInNode` preserves the
node's text content, whether or not the target occurs. -/
theorem docText_highlightTextInNode (s t : List Char) :
    docText (highlightTextInNode s t) = s := by
  cases h : subIndex t s with
  | none => simp [highlightTextInNode, h, docText]
  | some i =>
    have key : s.take i ++ ((s.drop i).take t.length ++ s.drop (i + t.length)) = s := by
      have h2 : s.drop (i + t.length) = (s.drop i).drop t.length :=
        (List.drop_drop t.length i s).symm
      rw [h2, List.take_append_drop, List.take_append_drop]
    simp only [highlightTextInNode, h, docText_append, docText_optText]
    simp only [docText, List.append_nil] at key ⊢
    rw [List.append_assoc]
    exact key

/-- The highlight pass preserves the text content of the region. -/
theorem docText_applyList (ss : List (List Char)) (l : List DomNode) :
    docText (applyList ss l) = docText l := by
  induction l using applyList.induct ss with
  | case1 => simp [applyList]
  | case2 s ns ih =>
    rw [applyList, docText_append, ih]
    split
    · simp [docText]
    · split <;> simp [docText, docText_highlightTextInNode]
  | case3 cs ns ih1 ih2 => simp [applyList, docText, ih1, ih2]

/-- Replacing every marker element by its text content preserves the text
content of the region. -/
theorem docText_removeMarksList (l : List DomNode) :
    docText (removeMarksList l) = docText l := by
  induction l with
  | nil => simp [removeMarksList]
  | cons n ns ih => cases n <;> simp [removeMarksList, docText, ih]

/-- Normalization (dropping empty text nodes and merging adjacent text
nodes) preserves the text content of the region. -/
theorem docText_normalizeNodes (l : List DomNode) :
    docText (normalizeNodes l) = docText l := by
  induction l with
  | nil => simp [normalizeNodes]
  | cons n ns ih =>
    cases n with
    | mark cs => simp [normalizeNodes, docText, ih]
    | text s =>
      rw [normalizeNodes]
      by_cases hs : s = []
      · simp [hs, docText, ih]
      · rw [if_neg hs]
        cases hr : normalizeNodes ns with
        | nil => simp [docText, ← ih, hr]
        | cons m rest =>
          cases m with
          | text u => simp [docText, ← ih, hr]
          | mark cs => simp [docText, ← ih, hr]

/-- The replacement loop of `removeHighlights` leaves no marker element
behind. -/
theorem anyMark_removeMarksList (l : List DomNode) :
    anyMark (removeMarksList l) = false := by
  induction l with
  | nil => simp [removeMarksList, anyMark]
  | cons n ns ih => cases n <;> simp [removeMarksList, anyMark, ih]

/-- Normalization introduces no marker element into a marker-free
region. -/
theorem anyMark_normalizeNodes (l : List DomNode)
    (h : anyMark l = false) : anyMark (normalizeNodes l) = false := by
  induction l with
  | nil => simpa [normalizeNodes] using h
  | cons n ns ih =>
    cases n with
    | mark cs => simp [anyMark] at h
    | text s =>
      rw [anyMark] at h
      rw [normalizeNodes]
      by_cases hs : s = []
      · simp [hs, ih h]
      · rw [if_neg hs]
        have ih2 := ih h
        cases hr : normalizeNodes ns with
        | nil => simp [anyMark]
        | cons m rest =>
          rw [hr] at ih2
          cases m with
          | text u => simpa [anyMark] using ih2
          | mark cs => simp [anyMark] at ih2

/-- The removal always produces a marker-free region: either
markers were present and all of them are replaced, or none were present
and the region is returned untouched. -/
theorem anyMark_removeHighlights (doc : List DomNode) :
    anyMark (removeHighlights doc) = false := by
  rw [removeHighlights]
  by_cases h : anyMark doc
  · rw [if_pos h]
    exact anyMark_normalizeNodes _ (anyMark_removeMarksList doc)
  · rw [if_neg h]
    simpa using h

/-- On a marker-free region the removal query finds nothing and the
document is left untouched. -/
theorem removeHighlights_of_noMark (doc : List DomNode)
    (h : anyMark doc = false) : removeHighlights doc = doc := by
  rw [removeHighlights, h]
  simp

/-- C5: `removeHighlights` is idempotent — the second of two consecutive
calls changes nothing (the removal loop is a total function, so no
exception arises), and after the first call no element carrying the
highlight marker class remains. -/
theorem removeHighlights_idempotent (doc : List DomNode) :
    removeHighlights (removeHighlights doc) = removeHighlights doc
      ∧ anyMark (removeHighlights doc) = false :=
  ⟨removeHighlights_of_noMark _ (anyMark_removeHighlights doc),
    anyMark_removeHighlights doc⟩

/-- C4: applying highlights and then immediately removing them restores
the text content of the affected region to its pre-highlight value. -/
theorem highlight_roundtrip_text (sentences : List (List Char))
    (doc : List DomNode) :
    docText (removeHighlights (applyHighlights sentences doc)) = docText doc := by
  have h1 : docText (applyHighlights sentences doc) = docText doc :=
    docText_applyList sentences doc
  rw [removeHighlights]
  by_cases h : anyMark (applyHighlights sentences doc)
  · rw [if_pos h, docText_normalizeNodes, docText_removeMarksList, h1]
  · rw [if_neg h]
    exact h1

/-- A marker-free region trivially has no nested markers. -/
theorem nestedFree_of_noMark (l : List DomNode)
    (h : anyMark l = false) : nestedFree l = true := by
  induction l with
  | nil => simp [nestedFree]
  | cons n ns ih =>
    cases n with
    | text s => rw [anyMark] at h; simp [nestedFree, ih h]
    | mark cs => simp [anyMark] at h

/-- Marker presence distributes over concatenation. -/
theorem anyMark_append (a b : List DomNode) :
    anyMark (a ++ b) = (anyMark a || anyMark b) := by
  induction a with
  | nil => simp [anyMark]
  | cons n ns ih => cases n <;> simp [anyMark, ih]

/-- Nesting-freedom distributes over concatenation. -/
theorem nestedFree_append (a b : List DomNode) :
    nestedFree (a ++ b) = (nestedFree a && nestedFree b) := by
  induction a with
  | nil => simp [nestedFree]
  | cons n ns ih => cases n <;> simp [nestedFree, ih, Bool.and_assoc]

/-- The fragment produced by `highlightTextInNode` never nests markers:
its only marker wraps a single text node. -/
theorem nestedFree_highlightTextInNode (s t : List Char) :
    nestedFree (highlightTextInNode s t) = true := by
  cases h : subIndex t s with
  | none => simp [highlightTextInNode, h, nestedFree]
  | some i =>
    simp only [highlightTextInNode, h, nestedFree_append]
    split_ifs <;> simp [nestedFree, anyMark]

/-- Applying highlights to a marker-free region produces no nested
markers. -/
theorem nestedFree_applyList (ss : List (List Char)) (l : List DomNode)
    (h : anyMark l = false) : nestedFree (applyList ss l) = true := by
  induction l with
  | nil => simp [applyList, nestedFree]
  | cons n ns ih =>
    cases n with
    | mark cs => simp [anyMark] at h
    | text s =>
      rw [anyMark] at h
      rw [applyList, nestedFree_append]
      refine Bool.and_eq_true_iff.mpr ⟨?_, ih h⟩
      split
      · simp [nestedFree]
      · split
        · exact nestedFree_highlightTextInNode _ _
        · simp [nestedFree]

/-- C8: every highlight application is preceded by a full removal of the
previous markers (`highlightImportantContent` calls `removeHighlights`
first), so in every reachable document state no highlight marker is
nested inside another. -/
theorem reachable_nestedFree (doc : List DomNode) (h : Reachable doc) :
    nestedFree doc = true := by
  induction h with
  | init d hd => exact nestedFree_of_noMark d hd
  | highlight d _ _ =>
    exact nestedFree_applyList _ _ (anyMark_removeHighlights d)
  | remove d _ _ =>
    exact nestedFree_of_noMark _ (anyMark_removeHighlights d)

/-- Witness for C8: a concrete page that is first highlighted from the
initial marker-free state. -/
theorem reachable_nestedFree_witness :
    nestedFree
        (highlightImportantContent
          [DomNode.text (String.toList
            "This page holds one sentence that is clearly long enough to qualify for highlighting. Short tail.")])
      = true :=
  reachable_nestedFree _
    (Reachable.highlight _ (Reachable.init _ rfl))

/-- A successful begins-with test means the string is the pattern followed
by a remainder. -/
theorem beginsWith_eq_append (t : List Char) :
    ∀ u, beginsWith t u = true → ∃ v, u = t ++ v := by
  induction t with
  | nil => intro u _; exact ⟨u, rfl⟩
  | cons a as ih =>
    intro u hu
    cases u with
    | nil => simp [beginsWith] at hu
    | cons b bs =>
      rw [beginsWith, Bool.and_eq_true, beq_iff_eq] at hu
      obtain ⟨v, hv⟩ := ih bs hu.2
      exact ⟨v, by rw [hu.1, hv]; rfl⟩

/-- The index reported by `subIndex` points at an occurrence of the
pattern. -/
theorem subIndex_some_begins (t : List Char) :
    ∀ s i, subIndex t s = some i → beginsWith t (s.drop i) = true := by
  intro s
  induction s with
  | nil =>
    intro i h
    rw [subIndex] at h
    by_cases hb : beginsWith t []
    · rw [if_pos hb] at h
      cases h
      simpa using hb
    · rw [if_neg hb] at h
      cases h
  | cons c rest ih =>
    intro i h
    rw [subIndex] at h
    by_cases hb : beginsWith t (c :: rest)
    · rw [if_pos hb] at h
      cases h
      simpa using hb
    · rw [if_neg hb] at h
      rcases hj : subIndex t rest with _ | j
      · rw [hj] at h; cases h
      · rw [hj, Option.map_some'] at h
        cases h
        simpa [List.drop_succ_cons] using ih j hj

/-- An optionally omitted text node is never the empty text node. -/
theorem text_nil_not_mem_optText (x : List Char) :
    DomNode.text [] ∉ (if x = [] then ([] : List DomNode) else [DomNode.text x]) := by
  by_cases hx : x = []
  · simp [hx]
  · rw [if_neg hx]
    intro hmem
    have := List.mem_singleton.mp hmem
    injection this with he
    exact hx he.symm

/-- C10: when the target occurs in a text node, the replacement fragment
consists of the (possibly omitted) before-text, the marker element
wrapping exactly the matched target, and the (possibly omitted)
after-text; the concatenated text contents equal the original node's
text, and no empty text node is inserted. -/
theorem highlightTextInNode_fragment (s t : List Char)
    (h : containsSub s t = true) :
    docText (highlightTextInNode s t) = s
      ∧ (∃ i, subIndex t s = some i ∧
          highlightTextInNode s t =
            (if s.take i = [] then [] else [DomNode.text (s.take i)])
              ++ [DomNode.mark [DomNode.text t]]
              ++ (if s.drop (i + t.length) = [] then []
                  else [DomNode.text (s.drop (i + t.length))]))
      ∧ DomNode.text [] ∉ highlightTextInNode s t := by
  obtain ⟨i, hi⟩ : ∃ i, subIndex t s = some i := by
    rcases hsome : subIndex t s with _ | i
    · rw [containsSub, hsome] at h
      simp at h
    · exact ⟨i, rfl⟩
  have hb := subIndex_some_begins t s i hi
  obtain ⟨v, hv⟩ := beginsWith_eq_append t _ hb
  have htake : (s.drop i).take t.length = t := by
    rw [hv, List.take_left]
  refine ⟨docText_highlightTextInNode s t, ⟨i, hi, ?_⟩, ?_⟩
  · simp only [highlightTextInNode, hi, htake]
  · simp only [highlightTextInNode, hi]
    intro hmem
    rw [List.append_assoc, List.mem_append] at hmem
    rcases hmem with hmem | hmem
    · exact text_nil_not_mem_optText _ hmem
    · rw [List.mem_append] at hmem
      rcases hmem with hmem | hmem
      · rcases List.mem_singleton.mp hmem
      · exact text_nil_not_mem_optText _ hmem

/-- Witness for C10 at a concrete node and target. -/
theorem highlightTextInNode_fragment_witness :
    docText
        (highlightTextInNode (String.toList "hello world") (String.toList "lo w"))
      = String.toList "hello world" :=
  (highlightTextInNode_fragment _ _ (by decide)).1

/-- C9: a message whose action name is not one of the recognized actions
is answered with the structured failure payload (success false, error
description) — the listener's default branch — and the handler, being a
total function, raises nothing; every recognized action is answered with
a non-failure result payload. -/
theorem handleMessage_unknown_action (pageText : List Char)
    (headings : List (List Char)) (action : String) (query : List Char) :
    (action ∉ recognizedActions →
        handleMessage pageText headings action query
          = HandlerResponse.failure "Unknown action")
      ∧ (action ∈ recognizedActions →
        (handleMessage pageText headings action query).isFailure = false) := by
  constructor
  · intro h
    simp only [recognizedActions, List.mem_cons, List.not_mem_nil, or_false,
      not_or] at h
    obtain ⟨h1, h2, h3, h4, h5⟩ := h
    simp [handleMessage, h1, h2, h3, h4, h5]
  · intro h
    simp only [recognizedActions, List.mem_cons, List.not_mem_nil, or_false] at h
    rcases h with h | h | h | h | h <;> subst h <;>
      simp [handleMessage, HandlerResponse.isFailure]

/-- Witness for C9: an unrecognized action name gets the structured
failure, concretely. -/
theorem handleMessage_unknown_action_witness :
    handleMessage [] [] "summarizePage" []
      = HandlerResponse.failure "Unknown action" :=
  (handleMessage_unknown_action [] [] "summarizePage" []).1 (by decide)
